import Mathlib

/-!
Verification development for the wiki-to-LaTeX book builder
(`buildBook.py`).  The Python source is shallowly embedded: strings are
`List Char` at the core with `String` wrappers, BeautifulSoup documents
are an explicit `Html` tree, fallible code (Python exceptions) returns
`Option`, and the external collaborators (the pandoc converter and the
network fetch of an example page) are passed in as function parameters.

Character classes: the Python regexes use `\w` and `\s`; the embedding
models their ASCII fragment (`\w` = ASCII alphanumeric or underscore,
`\s` = ASCII whitespace).
-/

set_option maxHeartbeats 1600000

namespace BuildBook

/-- ASCII fragment of Python's `\s` / `str.strip` whitespace class. -/
def pyIsSpace (c : Char) : Bool :=
  c = ' ' || c = '\t' || c = '\n' || c = '\r' || c = '\x0b' || c = '\x0c'

/-- ASCII fragment of Python's `\w` word-character class. -/
def pyIsWord (c : Char) : Bool :=
  c.isAlphanum || c = '_'

/-- Characters kept by `re.sub(r"[^\w\s-]", "", title)`. -/
def keepChar (c : Char) : Bool :=
  pyIsWord c || pyIsSpace c || c = '-'

/-- Python `str.strip()` on a character list. -/
def pyStripL (s : List Char) : List Char :=
  ((s.dropWhile pyIsSpace).reverse.dropWhile pyIsSpace).reverse

/-- Python `str.strip()`. -/
def pyStripS (s : String) : String :=
  ⟨pyStripL s.data⟩

/-- Python `str.replace(old, new)` on character lists: replace every
non-overlapping occurrence of `old`, scanning left to right, continuing
after each substituted fragment.  (All call sites in the source pass a
non-empty `old`; for `old = []` this is the identity.) -/
def replList (old new : List Char) : List Char → List Char
  | [] => []
  | c :: rest =>
    if h : old ≠ [] ∧ old <+: (c :: rest) then
      new ++ replList old new (List.drop old.length (c :: rest))
    else
      c :: replList old new rest
termination_by s => s.length
decreasing_by
  · simp only [List.length_drop, List.length_cons]
    have : 1 ≤ old.length := List.length_pos.mpr h.1
    omega
  · simp [Nat.lt_succ_self]

/-- Python `str.replace(old, new)`. -/
def pyReplaceS (s old new : String) : String :=
  ⟨replList old.data new.data s.data⟩

/-- The non-greedy part `(.+?)\}\}` of the transclusion pattern
`\{\{:(.+?)\}\}`, tried at a fixed start position: consume the shortest
non-empty run of non-newline characters that is followed by `}}`;
return the captured run and the remainder after the `}}`. -/
def scanTitle : List Char → Option (List Char × List Char)
  | [] => none
  | c :: rest =>
    if c = '\n' then none
    else if ['\x7d', '\x7d'] <+: rest then some ([c], rest.drop 2)
    else
      match scanTitle rest with
      | some (t, r) => some (c :: t, r)
      | none => none

theorem scanTitle_length {s t r : List Char} (h : scanTitle s = some (t, r)) :
    r.length < s.length := by
  induction s generalizing t r with
  | nil => simp [scanTitle] at h
  | cons c cs ih =>
    rw [scanTitle] at h
    split at h
    · simp at h
    · split at h
      · simp only [Option.some.injEq, Prod.mk.injEq] at h
        obtain ⟨h1, h2⟩ := h
        subst h2
        simp only [List.length_cons, List.length_drop]
        omega
      · cases heq : scanTitle cs with
        | none => rw [heq] at h; simp at h
        | some pr =>
          obtain ⟨t', r'⟩ := pr
          rw [heq] at h
          simp only [Option.some.injEq, Prod.mk.injEq] at h
          obtain ⟨h1, h2⟩ := h
          subst h2
          have := ih heq
          simp only [List.length_cons]
          omega

/-- `re.findall(r"\{\{:(.+?)\}\}", s)`: the list of captured titles, in
order, scanning left to right with non-overlapping matches.  A match
attempt starting at a `{{:` whose title part fails can be resumed right
after the `{{:`, since no match can start at its second or third
character. -/
def findall : List Char → List (List Char)
  | [] => []
  | c :: rest =>
    if c = '\x7b' ∧ ['\x7b', ':'] <+: rest then
      match h : scanTitle (rest.drop 2) with
      | some (t, r) => t :: findall r
      | none => findall (rest.drop 2)
    else
      findall rest
termination_by s => s.length
decreasing_by
  · have := scanTitle_length h
    simp only [List.length_cons]
    have h2 : (rest.drop 2).length ≤ rest.length := by
      simp [List.length_drop]
    omega
  · simp only [List.length_cons, List.length_drop]
    omega
  · simp [Nat.lt_succ_self]

/-- `add_examples_to_content` (lines 168–191), with the network fetch
and pandoc rendering of one example page abstracted as `fetch`: collect
all transclusion markers of the original content, then for each one in
order replace every occurrence of `{{:` + stripped title + `}}` by the
fetched fragment. -/
def addExamplesCore (fetch : List Char → List Char) (content : List Char) :
    List Char :=
  (findall content).foldl
    (fun c m =>
      replList ('\x7b' :: '\x7b' :: ':' :: pyStripL m ++ ['\x7d', '\x7d'])
        (fetch (pyStripL m)) c)
    content

/-- String-level `add_examples_to_content`. -/
def add_examples_to_content (fetch : String → String) (content : String) :
    String :=
  ⟨addExamplesCore (fun l => (fetch ⟨l⟩).data) content.data⟩

/-- The `(.+?)\}` tail of the pattern `\\url\{.+?\}\{(.+?)\}`: shortest
non-empty run of non-newline characters followed by `}`; returns the
capture and the remainder. -/
def scanBrace : List Char → Option (List Char × List Char)
  | [] => none
  | c :: rest =>
    if c = '\n' then none
    else if ['\x7d'] <+: rest then some ([c], rest.drop 1)
    else
      match scanBrace rest with
      | some (t, r) => some (c :: t, r)
      | none => none

theorem scanBrace_length {s t r : List Char} (h : scanBrace s = some (t, r)) :
    r.length < s.length := by
  induction s generalizing t r with
  | nil => simp [scanBrace] at h
  | cons c cs ih =>
    rw [scanBrace] at h
    split at h
    · simp at h
    · split at h
      · simp only [Option.some.injEq, Prod.mk.injEq] at h
        obtain ⟨h1, h2⟩ := h
        subst h2
        simp only [List.length_cons, List.length_drop]
        omega
      · cases heq : scanBrace cs with
        | none => rw [heq] at h; simp at h
        | some pr =>
          obtain ⟨t', r'⟩ := pr
          rw [heq] at h
          simp only [Option.some.injEq, Prod.mk.injEq] at h
          obtain ⟨h1, h2⟩ := h
          subst h2
          have := ih heq
          simp only [List.length_cons]
          omega

/-- The `.+?\}\{(.+?)\}` part of `\\url\{.+?\}\{(.+?)\}`, tried after a
literal `\url{`: the first (backtracking) part consumes non-newline
characters one at a time; at each boundary where `}{` follows, the
second capture is attempted, and on its failure the first part keeps
extending.  Returns the capture of the second group and the remainder
after the whole match. -/
def scanUrl : List Char → Option (List Char × List Char)
  | [] => none
  | c :: rest =>
    if c = '\n' then none
    else if ['\x7d', '\x7b'] <+: rest then
      match scanBrace (rest.drop 2) with
      | some (b, r) => some (b, r)
      | none => scanUrl rest
    else
      scanUrl rest

theorem scanUrl_length {s t r : List Char} (h : scanUrl s = some (t, r)) :
    r.length < s.length := by
  induction s generalizing t r with
  | nil => simp [scanUrl] at h
  | cons c cs ih =>
    rw [scanUrl] at h
    split at h
    · simp at h
    · split at h
      · cases heq : scanBrace (cs.drop 2) with
        | none =>
          rw [heq] at h
          have := ih h
          simp only [List.length_cons]
          omega
        | some pr =>
          obtain ⟨b', r'⟩ := pr
          rw [heq] at h
          simp only [Option.some.injEq, Prod.mk.injEq] at h
          obtain ⟨h1, h2⟩ := h
          subst h2
          have := scanBrace_length heq
          have h2 : (cs.drop 2).length ≤ cs.length := by
            simp [List.length_drop]
          simp only [List.length_cons]
          omega
      · have := ih h
        simp only [List.length_cons]
        omega

/-- `re.sub(r"\\url\{.+?\}\{(.+?)\}", r"\1", s)` (line 252): replace
every match of the hyperlink wrapper by its visible text (the second
brace group), scanning left to right, non-overlapping. -/
def urlSub : List Char → List Char
  | [] => []
  | c :: rest =>
    if c = '\\' ∧ ['u', 'r', 'l', '\x7b'] <+: rest then
      match h : scanUrl (rest.drop 4) with
      | some (b, r) => b ++ urlSub r
      | none => c :: urlSub rest
    else
      c :: urlSub rest
termination_by s => s.length
decreasing_by
  · have := scanUrl_length h
    have h2 : (rest.drop 4).length ≤ rest.length := by
      simp [List.length_drop]
    simp only [List.length_cons]
    omega
  · simp [Nat.lt_succ_self]
  · simp [Nat.lt_succ_self]

/-- String-level `\url` stripping. -/
def urlSubS (s : String) : String :=
  ⟨urlSub s.data⟩

theorem dropWhile_length_le (p : Char → Bool) (l : List Char) :
    (l.dropWhile p).length ≤ l.length := by
  induction l with
  | nil => simp
  | cons c cs ih =>
    rw [List.dropWhile_cons]
    split
    · exact Nat.le_succ_of_le ih
    · simp

/-- The safe-title derivation (lines 204–205):
`re.sub(r"[^\w\s-]", "", title)` keeps only word characters,
whitespace and hyphens (character-by-character filter), then
`re.sub(r"[-\s]+", "_", ...)` collapses every maximal run of hyphens
and whitespace into a single underscore. -/
def collapseRuns : List Char → List Char
  | [] => []
  | c :: rest =>
    if pyIsSpace c || c = '-' then
      '_' :: collapseRuns (rest.dropWhile (fun d => pyIsSpace d || d = '-'))
    else
      c :: collapseRuns rest
termination_by s => s.length
decreasing_by
  · have := dropWhile_length_le (fun d => pyIsSpace d || d = '-') rest
    simp only [List.length_cons]
    omega
  · simp [Nat.lt_succ_self]

/-- `safe_title` as computed in `process_structure`. -/
def safeTitleS (title : String) : String :=
  ⟨collapseRuns (title.data.filter keepChar)⟩

/-! ## BeautifulSoup document model -/

/-- A parsed HTML node: an element with tag name, attributes and
children, or a navigable string. -/
inductive Html where
  | tag : String → List (String × String) → List Html → Html
  | text : String → Html

/-- Attribute rendering for `str(tag)`. -/
def renderAttrs (attrs : List (String × String)) : String :=
  attrs.foldl (fun acc kv => acc ++ " " ++ kv.1 ++ "=\"" ++ kv.2 ++ "\"") ""

mutual

/-- `str(node)`: a `NavigableString` is its own text, a `Tag` renders
as markup. -/
def render : Html → String
  | .text s => s
  | .tag n attrs children =>
    "<" ++ n ++ renderAttrs attrs ++ ">" ++ renderList children ++
      "</" ++ n ++ ">"
termination_by h => sizeOf h

/-- Concatenated rendering of a list of nodes. -/
def renderList : List Html → String
  | [] => ""
  | h :: t => render h ++ renderList t
termination_by l => sizeOf l

end

/-- `soup.find(name)` over a list of nodes: first element named `name`
in document order (an element before its own descendants), searching
recursively. -/
def findFirst (name : String) : List Html → Option Html
  | [] => none
  | .text _ :: rest => findFirst name rest
  | .tag n a c :: rest =>
    if n = name then some (.tag n a c)
    else
      match findFirst name c with
      | some r => some r
      | none => findFirst name rest
termination_by l => sizeOf l

/-- `tag.find(name)`: search the node's descendants. -/
def findTagIn (name : String) : Html → Option Html
  | .text _ => none
  | .tag _ _ c => findFirst name c

/-- `tag.get(key, dflt)`. -/
def attrOf (h : Html) (key dflt : String) : String :=
  match h with
  | .tag _ attrs _ =>
    match attrs.lookup key with
    | some v => v
    | none => dflt
  | .text _ => dflt

/-- Is this node a `<li>` element? -/
def isLiTag : Html → Bool
  | .tag n _ _ => n == "li"
  | .text _ => false

/-- `ol.find_all("li", recursive=False)`: direct children that are
`<li>` elements. -/
def directLisOf : Html → List Html
  | .tag _ _ cs => cs.filter isLiTag
  | .text _ => []

theorem findFirst_sizeOf_bound (name : String) :
    ∀ fuel : Nat, ∀ {l : List Html} {r : Html}, sizeOf l ≤ fuel →
      findFirst name l = some r → sizeOf r < sizeOf l := by
  intro fuel
  induction fuel with
  | zero =>
    intro l r hle h
    cases l with
    | nil => simp at hle
    | cons hd rest =>
      exfalso
      simp only [List.cons.sizeOf_spec] at hle
      omega
  | succ n ih =>
    intro l r hle h
    cases l with
    | nil => simp [findFirst] at h
    | cons hd rest =>
      match hd with
      | .text s =>
        rw [findFirst] at h
        have hr : sizeOf rest ≤ n := by
          simp only [List.cons.sizeOf_spec, Html.text.sizeOf_spec] at hle ⊢
          omega
        have := ih hr h
        simp only [List.cons.sizeOf_spec]
        omega
      | .tag nm a c =>
        rw [findFirst] at h
        split at h
        · simp only [Option.some.injEq] at h
          subst h
          simp only [List.cons.sizeOf_spec]
          omega
        · cases heq : findFirst name c with
          | some r' =>
            rw [heq] at h
            simp only [Option.some.injEq] at h
            subst h
            have hc : sizeOf c ≤ n := by
              simp only [List.cons.sizeOf_spec, Html.tag.sizeOf_spec] at hle
              omega
            have := ih hc heq
            simp only [List.cons.sizeOf_spec, Html.tag.sizeOf_spec]
            omega
          | none =>
            rw [heq] at h
            have hr : sizeOf rest ≤ n := by
              simp only [List.cons.sizeOf_spec] at hle
              omega
            have := ih hr h
            simp only [List.cons.sizeOf_spec]
            omega

theorem findFirst_sizeOf {name : String} {l : List Html} {r : Html}
    (h : findFirst name l = some r) : sizeOf r < sizeOf l :=
  findFirst_sizeOf_bound name (sizeOf l) (Nat.le_refl _) h

theorem sizeOf_filter_le (p : Html → Bool) (l : List Html) :
    sizeOf (l.filter p) ≤ sizeOf l := by
  induction l with
  | nil => simp
  | cons hd rest ih =>
    rw [List.filter_cons]
    split
    · simp only [List.cons.sizeOf_spec]
      omega
    · simp only [List.cons.sizeOf_spec]
      omega

theorem directLisOf_sizeOf_lt (h : Html) :
    sizeOf (directLisOf h) < sizeOf h := by
  match h with
  | .tag n a c =>
    have := sizeOf_filter_le isLiTag c
    simp only [directLisOf, Html.tag.sizeOf_spec]
    omega
  | .text s =>
    obtain ⟨data⟩ := s
    simp only [directLisOf, Html.text.sizeOf_spec, String.mk.sizeOf_spec]
    cases data with
    | nil => simp
    | cons c cs => simp only [List.nil.sizeOf_spec, List.cons.sizeOf_spec]; omega

/-! ## ToC tree builder (`parse_list_items`, lines 112–138) -/

/-- One entry of the parsed table of contents: the dictionary built at
lines 126–132.  The spec's `targetRef` is the `url` field. -/
structure Item where
  title : String
  url : String
  hasLink : Bool
  depth : Nat
  children : List Item

/-- `WIKI_BASE_URL` (line 25). -/
def WIKI_BASE_URL : String := "https://style.miraheze.org"

/-- `s.startswith(pre)`, expressed on character lists. -/
def strStarts (pre s : String) : Bool :=
  pre.data.isPrefixOf s.data

/-- `urljoin(WIKI_BASE_URL, href)` for an `href` that starts with `/`:
a protocol-relative `//…` reference keeps only the scheme, otherwise
the site authority is prepended. -/
def urljoinSite (href : String) : String :=
  if strStarts "//" href then "https:" ++ href else WIKI_BASE_URL ++ href

mutual

/-- The body of the `for li in ol.find_all("li", recursive=False)`
loop (lines 115–137) for one `li`.  Python exceptions become `none`:
an empty `li.contents` raises `IndexError` at `li.contents[0]`, and a
`li` whose subtree has no `<a>` raises `AttributeError` at
`link.get("href", "")` because `li.find("a")` is `None`. -/
def parseItem (d : Nat) (li : Html) : Option Item :=
  match li with
  | .text _ => none
  | .tag _ _ cs =>
    match cs.head? with
    | none => none
    | some c0 =>
      match findFirst "a" cs with
      | none => none
      | some lk =>
        let content := render c0
        let text := pyStripS content
        let href := attrOf lk "href" ""
        let page_title := pyReplaceS href "_" " "
        let hasLink := content == render lk
        let href2 := if strStarts "/" href then urljoinSite href else href
        match hol : findFirst "ol" cs with
        | some ol =>
          match parseLis (d + 1) (directLisOf ol) with
          | some ch =>
            some ⟨if hasLink then page_title else text,
                  if hasLink then href2 else "", hasLink, d, ch⟩
          | none => none
        | none =>
          some ⟨if hasLink then page_title else text,
                if hasLink then href2 else "", hasLink, d, []⟩
termination_by sizeOf li
decreasing_by
  have h1 := findFirst_sizeOf hol
  have h2 := directLisOf_sizeOf_lt ol
  simp only [Html.tag.sizeOf_spec]
  omega

/-- The whole loop over a list of `li` elements, accumulating items in
order. -/
def parseLis (d : Nat) (lis : List Html) : Option (List Item) :=
  match lis with
  | [] => some []
  | li :: rest =>
    match parseItem d li with
    | none => none
    | some it =>
      match parseLis d rest with
      | none => none
      | some items => some (it :: items)
termination_by sizeOf lis
decreasing_by
  · simp only [List.cons.sizeOf_spec]
    omega
  · simp only [List.cons.sizeOf_spec]
    omega

end

/-- `parse_list_items(ol, depth)` (line 112). -/
def parse_list_items (ol : Html) (depth : Nat := 0) : Option (List Item) :=
  parseLis depth (directLisOf ol)

/-- The depth invariant of a parsed forest: every item at this level
carries depth `d` and its children recursively carry depth `d + 1`. -/
def depthInvList (d : Nat) : List Item → Bool
  | [] => true
  | it :: rest =>
    it.depth == d && depthInvList (d + 1) it.children && depthInvList d rest
termination_by l => sizeOf l
decreasing_by
  · simp only [List.cons.sizeOf_spec]
    have hlt : sizeOf it.children < sizeOf it := by
      obtain ⟨t, u, hb, dp, ch⟩ := it
      simp only [Item.mk.sizeOf_spec]
      omega
    omega
  · simp only [List.cons.sizeOf_spec]
    omega

/-! ## Tree renderer (`process_structure`, lines 194–265)

The XML snapshot is modelled as the list of its `(title, text)` pages
in document order; `pypandoc.convert_text(…, "latex",
format="mediawiki")` is the abstract converter `conv`, and the network
fetch inside `add_examples_to_content` is the abstract `fetch`. -/

/-- The `for page in root.findall(...)` lookup loop (lines 222–230):
every matching page overwrites `wiki_content` (the last match wins),
each time stripped and passed through `add_examples_to_content`;
`wiki_content` stays `""` when no page title matches. -/
def lookupContent (fetch : String → String) (pages : List (String × String))
    (t : String) : String :=
  pages.foldl
    (fun acc p =>
      if p.1 = t then add_examples_to_content fetch (pyStripS p.2) else acc)
    ""

/-- First argument of the first post-conversion `.replace` (line 240). -/
def longtableOld : String := "\\begin\x7blongtable\x7d[]\x7b@\x7b\x7dll@\x7b\x7d\x7d"

/-- Replacement of the first post-conversion `.replace` (line 241). -/
def longtableNew : String :=
  "\\begin\x7blongtable\x7d[]\x7b|p\x7b0.45\\textwidth\x7d|p\x7b0.45\\textwidth\x7d\x7d"

/-- The boilerplate block removed by the second `.replace`
(lines 244–247). -/
def topruleBlock : String :=
  "\\toprule\\noalign\x7b\x7d\n\\endhead\n\\bottomrule\\noalign\x7b\x7d\n\\endlastfoot"

/-- `chapter_content` right before the file write (lines 216–252): for
a linked item, the looked-up wiki text is converted and the two fixed
table replacements applied; in both cases the `\url{…}{…}` wrappers
are stripped at line 252. -/
def chapterBody (fetch conv : String → String)
    (pages : List (String × String)) (it : Item) : String :=
  let base :=
    if it.hasLink then
      pyReplaceS (pyReplaceS (conv (lookupContent fetch pages it.title))
          longtableOld longtableNew)
        topruleBlock ""
    else ""
  urlSubS base

/-- `category` (line 255). -/
def category : List String := ["part", "chapter", "chapter"]

/-- The full text written to the chapter file (lines 254–257): heading
command selected by `category[depth]`, the title, a blank line, and
the body with `subsection` demoted to `section`. -/
def unitContent (fetch conv : String → String)
    (pages : List (String × String)) (cat : String) (it : Item) : String :=
  "\\" ++ cat ++ "\x7b" ++ it.title ++ "\x7d\n\n" ++
    pyReplaceS (chapterBody fetch conv pages it) "subsection" "section"

/-- The chapter file name `f"{safe_title}.tex"` (line 206). -/
def fileNameOf (it : Item) : String :=
  safeTitleS it.title ++ ".tex"

/-- The manifest line written at line 259: two spaces per depth level,
then the include directive. -/
def manifestLine (it : Item) : String :=
  String.join (List.replicate it.depth "  ") ++
    "\\include\x7bchapters/" ++ safeTitleS it.title ++ "\x7d\n"

/-- The `:Rummad:` (category-namespace) skip test
`item["title"].startswith(":Rummad:")` (line 210), expressed on the
title's character list. -/
def skipItem (it : Item) : Bool :=
  ":Rummad:".data.isPrefixOf it.title.data

/-- `process_structure` (lines 194–265) as a pure function from the
structure to the ordered manifest lines and the ordered
`(filename, contents)` chapter files; `none` models an uncaught
exception (in particular the `IndexError` of `category[depth]` for
`depth ≥ 3`). -/
def process_structure (fetch conv : String → String)
    (pages : List (String × String)) : List Item →
    Option (List String × List (String × String))
  | [] => some ([], [])
  | it :: rest =>
    if skipItem it then process_structure fetch conv pages rest
    else
      match category.get? it.depth with
      | none => none
      | some cat =>
        match process_structure fetch conv pages it.children with
        | none => none
        | some (cl, cf) =>
          match process_structure fetch conv pages rest with
          | none => none
          | some (rl, rf) =>
            some (manifestLine it :: (cl ++ rl),
                  (fileNameOf it, unitContent fetch conv pages cat it) ::
                    (cf ++ rf))
termination_by l => sizeOf l
decreasing_by
  · simp only [List.cons.sizeOf_spec]
    omega
  · simp only [List.cons.sizeOf_spec]
    have hlt : sizeOf it.children < sizeOf it := by
      obtain ⟨t, u, hb, dp, ch⟩ := it
      simp only [Item.mk.sizeOf_spec]
      omega
    omega
  · simp only [List.cons.sizeOf_spec]
    omega

/-! ## Spec-side reference definitions

These two definitions follow the specification's words for the Tree
Renderer (§4.3): a pre-order depth-first walk that skips reserved
category nodes together with their subtrees, emits one manifest line
per rendered node, and chooses the heading by
`depth 0 → part, depth ≥ 1 → chapter`. -/

/-- Spec-side manifest: pre-order, one line per rendered node. -/
def preorderManifest : List Item → List String
  | [] => []
  | it :: rest =>
    if skipItem it then preorderManifest rest
    else
      manifestLine it ::
        (preorderManifest it.children ++ preorderManifest rest)
termination_by l => sizeOf l
decreasing_by
  · simp only [List.cons.sizeOf_spec]
    omega
  · simp only [List.cons.sizeOf_spec]
    have hlt : sizeOf it.children < sizeOf it := by
      obtain ⟨t, u, hb, dp, ch⟩ := it
      simp only [Item.mk.sizeOf_spec]
      omega
    omega
  · simp only [List.cons.sizeOf_spec]
    omega

/-- Spec-side heading choice: `depth 0 → "part"`,
`depth ≥ 1 → "chapter"`. -/
def headingOf (d : Nat) : String :=
  if d = 0 then "part" else "chapter"

/-- Spec-side output units: pre-order, one unit per rendered node,
heading chosen by `headingOf`. -/
def preorderFiles (fetch conv : String → String)
    (pages : List (String × String)) : List Item → List (String × String)
  | [] => []
  | it :: rest =>
    if skipItem it then preorderFiles fetch conv pages rest
    else
      (fileNameOf it, unitContent fetch conv pages (headingOf it.depth) it) ::
        (preorderFiles fetch conv pages it.children ++
          preorderFiles fetch conv pages rest)
termination_by l => sizeOf l
decreasing_by
  · simp only [List.cons.sizeOf_spec]
    omega
  · simp only [List.cons.sizeOf_spec]
    have hlt : sizeOf it.children < sizeOf it := by
      obtain ⟨t, u, hb, dp, ch⟩ := it
      simp only [Item.mk.sizeOf_spec]
      omega
    omega
  · simp only [List.cons.sizeOf_spec]
    omega

/-! ## Safe-title lemmas (claims C9, C10) -/

theorem word_not_space_hyphen {c : Char} (h : pyIsWord c = true) :
    pyIsSpace c = false ∧ c ≠ '-' := by
  refine ⟨?_, ?_⟩
  · cases hps : pyIsSpace c
    · rfl
    · exfalso
      rcases (by simpa [pyIsSpace] using hps :
          ((((c = ' ' ∨ c = '\t') ∨ c = '\n') ∨ c = '\x0d') ∨ c = '\x0b') ∨
            c = '\x0c') with ((((rfl | rfl) | rfl) | rfl) | rfl) | rfl <;>
        exact absurd h (by decide)
  · rintro rfl
    exact absurd h (by decide)

theorem keep_of_word {c : Char} (h : pyIsWord c = true) : keepChar c = true := by
  simp [keepChar, h]

theorem collapseRuns_word : ∀ l : List Char, (∀ c ∈ l, keepChar c = true) →
    ∀ c ∈ collapseRuns l, pyIsWord c = true := by
  intro l
  induction l using collapseRuns.induct with
  | case1 =>
    intro _ c hc
    rw [collapseRuns] at hc
    simp at hc
  | case2 c rest hcond ih =>
    intro hall d hd
    rw [collapseRuns, if_pos hcond] at hd
    rcases List.mem_cons.mp hd with rfl | hd'
    · decide
    · refine ih ?_ d hd'
      intro e he
      exact hall e (List.mem_cons_of_mem c
        ((List.dropWhile_sublist _).subset he))
  | case3 c rest hcond ih =>
    intro hall d hd
    rw [collapseRuns, if_neg hcond] at hd
    rcases List.mem_cons.mp hd with rfl | hd'
    · have hk := hall d (List.mem_cons_self _ _)
      simp only [keepChar, Bool.or_eq_true] at hk
      rcases hk with (hw | hs) | hh
      · exact hw
      · exact absurd (by simp [hs]) hcond
      · exact absurd (by simp [hh]) hcond
    · exact ih (fun e he => hall e (List.mem_cons_of_mem c he)) d hd'

theorem collapseRuns_eq_self : ∀ l : List Char,
    (∀ c ∈ l, pyIsWord c = true) → collapseRuns l = l := by
  intro l hall
  induction l with
  | nil => rw [collapseRuns]
  | cons c rest ih =>
    have hw := word_not_space_hyphen (hall c (List.mem_cons_self _ _))
    rw [collapseRuns, if_neg (by simp [hw.1, hw.2])]
    rw [ih (fun e he => hall e (List.mem_cons_of_mem c he))]

/-- C9: the filesystem-safe identifier derivation of `process_structure`
(strip characters outside word/whitespace/hyphen, then collapse runs of
hyphen/whitespace into one underscore) is idempotent: a second
derivation returns the first derivation unchanged. -/
theorem claim_C9_safe_title_idempotent (t : String) :
    safeTitleS (safeTitleS t) = safeTitleS t := by
  have hword : ∀ c ∈ collapseRuns (t.data.filter keepChar), pyIsWord c = true :=
    collapseRuns_word _ (fun c hc => List.of_mem_filter hc)
  show (⟨collapseRuns (((⟨collapseRuns (t.data.filter keepChar)⟩ :
      String)).data.filter keepChar)⟩ : String) = _
  rw [show ((⟨collapseRuns (t.data.filter keepChar)⟩ :
      String)).data = collapseRuns (t.data.filter keepChar) from rfl]
  rw [List.filter_eq_self.mpr (fun c hc => keep_of_word (hword c hc))]
  rw [collapseRuns_eq_self _ hword]
  rfl

/-- C10: every character of the derived identifier is a word character
(ASCII alphanumeric or underscore) — no whitespace, no hyphen, no
slash — and the chapter filename built from it contains no path
separator, so it is a single path component. -/
theorem claim_C10_safe_title_single_component (it : Item) (c : Char) :
    (c ∈ (safeTitleS it.title).data →
      pyIsWord c = true ∧ pyIsSpace c = false ∧ c ≠ '-' ∧ c ≠ '/') ∧
    (c ∈ (fileNameOf it).data → c ≠ '/') := by
  have hsafe : ∀ d ∈ (safeTitleS it.title).data, pyIsWord d = true := by
    intro d hd
    exact collapseRuns_word _ (fun e he => List.of_mem_filter he) d hd
  have hword_ne_slash : ∀ d : Char, pyIsWord d = true → d ≠ '/' := by
    intro d hw heq
    subst heq
    exact absurd hw (by decide)
  refine ⟨?_, ?_⟩
  · intro hc
    have hw := hsafe c hc
    obtain ⟨hs, hh⟩ := word_not_space_hyphen hw
    exact ⟨hw, hs, hh, hword_ne_slash c hw⟩
  · intro hc
    rw [fileNameOf, String.data_append] at hc
    rcases List.mem_append.mp hc with hl | hr
    · exact hword_ne_slash c (hsafe c hl)
    · rcases (by simpa using hr : c = '.' ∨ c = 't' ∨ c = 'e' ∨ c = 'x') with
        rfl | rfl | rfl | rfl <;> decide

/-- Witness for C10 at a concrete title with whitespace and
punctuation. -/
theorem claim_C10_witness :
    '_' ∈ (safeTitleS (Item.title ⟨"A b!", "", false, 0, []⟩)).data ∧
      (pyIsWord '_' = true ∧ pyIsSpace '_' = false ∧ '_' ≠ '-' ∧
        '_' ≠ '/') ∧
      '_' ∈ (fileNameOf ⟨"A b!", "", false, 0, []⟩).data ∧ '_' ≠ '/' := by
  have h1 : '_' ∈ (safeTitleS (Item.title ⟨"A b!", "", false, 0, []⟩)).data := by
    simp [safeTitleS, collapseRuns, keepChar, pyIsWord, pyIsSpace]
  have h2 : '_' ∈ (fileNameOf ⟨"A b!", "", false, 0, []⟩).data := by
    simp [fileNameOf, String.data_append, safeTitleS, collapseRuns, keepChar,
      pyIsWord, pyIsSpace]
  exact ⟨h1,
    (claim_C10_safe_title_single_component ⟨"A b!", "", false, 0, []⟩ '_').1 h1,
    h2,
    (claim_C10_safe_title_single_component ⟨"A b!", "", false, 0, []⟩ '_').2 h2⟩

/-! ## Tree renderer lemmas (claims C3–C6) -/

theorem process_structure_nil (fetch conv : String → String)
    (pages : List (String × String)) :
    process_structure fetch conv pages [] = some ([], []) := by
  rw [process_structure]

theorem process_structure_skip {it : Item} (fetch conv : String → String)
    (pages : List (String × String)) (rest : List Item)
    (h : skipItem it = true) :
    process_structure fetch conv pages (it :: rest) =
      process_structure fetch conv pages rest := by
  rw [process_structure, if_pos h]

/-- C3: whenever `process_structure` completes, the manifest lines it
wrote are exactly the pre-order depth-first traversal of the rendered
nodes — one line per rendered node, in traversal order, each line
indented by the node's depth (`manifestLine`) — and exactly one output
unit exists per manifest line; in particular no node is rendered more
than once. -/
theorem claim_C3_manifest_preorder (fetch conv : String → String)
    (pages : List (String × String)) (items : List Item) :
    ∀ lines files,
      process_structure fetch conv pages items = some (lines, files) →
      lines = preorderManifest items ∧ files.length = lines.length := by
  induction items using process_structure.induct fetch conv pages with
  | case1 =>
    intro lines files h
    rw [process_structure_nil] at h
    obtain ⟨rfl, rfl⟩ := by simpa using h
    rw [preorderManifest]
    exact ⟨rfl, rfl⟩
  | case2 it rest hskip ih =>
    intro lines files h
    rw [process_structure_skip fetch conv pages rest hskip] at h
    rw [preorderManifest, if_pos hskip]
    exact ih lines files h
  | case3 it rest hskip hcat =>
    intro lines files h
    rw [process_structure, if_neg hskip, hcat] at h
    simp at h
  | case4 it rest hskip cat hcat hch ih =>
    intro lines files h
    rw [process_structure, if_neg hskip, hcat, hch] at h
    simp at h
  | case5 it rest hskip cat hcat cl cf hch hrest ihc ihr =>
    intro lines files h
    rw [process_structure, if_neg hskip, hcat, hch, hrest] at h
    simp at h
  | case6 it rest hskip cat hcat cl cf hch rl rf hrest ihc ihr =>
    intro lines files h
    rw [process_structure, if_neg hskip, hcat, hch, hrest] at h
    obtain ⟨rfl, rfl⟩ := by simpa using h
    obtain ⟨hc1, hc2⟩ := ihc cl cf hch
    obtain ⟨hr1, hr2⟩ := ihr rl rf hrest
    rw [preorderManifest, if_neg hskip]
    subst hc1
    subst hr1
    refine ⟨rfl, ?_⟩
    simp only [List.length_cons, List.length_append]
    omega

/-- Heading selection agrees with the spec-side choice whenever the
list indexing succeeds. -/
theorem category_get_eq {d : Nat} {cat : String}
    (h : category.get? d = some cat) : cat = headingOf d := by
  match d with
  | 0 => simpa [category, headingOf] using h.symm
  | 1 => simpa [category, headingOf] using h.symm
  | 2 => simpa [category, headingOf] using h.symm
  | n + 3 => simp [category] at h

/-- C4: whenever `process_structure` completes, the output units it
wrote are exactly the pre-order units of the rendered nodes with the
heading command chosen by depth: `part` at depth 0 and `chapter` at
depth ≥ 1 (`headingOf`). -/
theorem claim_C4_heading_by_depth (fetch conv : String → String)
    (pages : List (String × String)) (items : List Item) :
    ∀ lines files,
      process_structure fetch conv pages items = some (lines, files) →
      files = preorderFiles fetch conv pages items := by
  induction items using process_structure.induct fetch conv pages with
  | case1 =>
    intro lines files h
    rw [process_structure_nil] at h
    obtain ⟨rfl, rfl⟩ := by simpa using h
    rw [preorderFiles]
  | case2 it rest hskip ih =>
    intro lines files h
    rw [process_structure_skip fetch conv pages rest hskip] at h
    rw [preorderFiles, if_pos hskip]
    exact ih lines files h
  | case3 it rest hskip hcat =>
    intro lines files h
    rw [process_structure, if_neg hskip, hcat] at h
    simp at h
  | case4 it rest hskip cat hcat hch ih =>
    intro lines files h
    rw [process_structure, if_neg hskip, hcat, hch] at h
    simp at h
  | case5 it rest hskip cat hcat cl cf hch hrest ihc ihr =>
    intro lines files h
    rw [process_structure, if_neg hskip, hcat, hch, hrest] at h
    simp at h
  | case6 it rest hskip cat hcat cl cf hch rl rf hrest ihc ihr =>
    intro lines files h
    rw [process_structure, if_neg hskip, hcat, hch, hrest] at h
    obtain ⟨rfl, rfl⟩ := by simpa using h
    rw [preorderFiles, if_neg hskip]
    rw [← ihc cl cf hch, ← ihr rl rf hrest]
    rw [category_get_eq hcat]

/-- Witness for C3: the tree `[A[B,C], D]` renders to manifest lines
A, B, C, D in that order, A and D at indent 0 and B and C at
indent 2 spaces, one file per line. -/
theorem claim_C3_witness :
    process_structure id id []
        [⟨"A", "", false, 0, [⟨"B", "", false, 1, []⟩, ⟨"C", "", false, 1, []⟩]⟩,
         ⟨"D", "", false, 0, []⟩] =
      some (["\\include\x7bchapters/A\x7d\n", "  \\include\x7bchapters/B\x7d\n",
             "  \\include\x7bchapters/C\x7d\n", "\\include\x7bchapters/D\x7d\n"],
            [("A.tex", "\\part\x7bA\x7d\n\n"), ("B.tex", "\\chapter\x7bB\x7d\n\n"),
             ("C.tex", "\\chapter\x7bC\x7d\n\n"), ("D.tex", "\\part\x7bD\x7d\n\n")]) ∧
      ["\\include\x7bchapters/A\x7d\n", "  \\include\x7bchapters/B\x7d\n",
       "  \\include\x7bchapters/C\x7d\n", "\\include\x7bchapters/D\x7d\n"] =
        preorderManifest
          [⟨"A", "", false, 0, [⟨"B", "", false, 1, []⟩, ⟨"C", "", false, 1, []⟩]⟩,
           ⟨"D", "", false, 0, []⟩] := by
  have h : process_structure id id []
      [⟨"A", "", false, 0, [⟨"B", "", false, 1, []⟩, ⟨"C", "", false, 1, []⟩]⟩,
       ⟨"D", "", false, 0, []⟩] =
      some (["\\include\x7bchapters/A\x7d\n", "  \\include\x7bchapters/B\x7d\n",
             "  \\include\x7bchapters/C\x7d\n", "\\include\x7bchapters/D\x7d\n"],
            [("A.tex", "\\part\x7bA\x7d\n\n"), ("B.tex", "\\chapter\x7bB\x7d\n\n"),
             ("C.tex", "\\chapter\x7bC\x7d\n\n"), ("D.tex", "\\part\x7bD\x7d\n\n")]) := by
    simp [process_structure, skipItem, category, manifestLine, fileNameOf,
      unitContent, chapterBody, urlSubS, urlSub, pyReplaceS, replList,
      safeTitleS, collapseRuns, keepChar, pyIsWord, pyIsSpace, lookupContent,
      String.join]
  exact ⟨h, (claim_C3_manifest_preorder id id [] _ _ _ h).1⟩

/-- Witness for C4: a chain at depths 0, 1, 2 gets headings
part, chapter, chapter, matching the spec-side choice. -/
theorem claim_C4_witness :
    process_structure id id []
        [⟨"A", "", false, 0, [⟨"B", "", false, 1, [⟨"E", "", false, 2, []⟩]⟩]⟩] =
      some (["\\include\x7bchapters/A\x7d\n", "  \\include\x7bchapters/B\x7d\n",
             "    \\include\x7bchapters/E\x7d\n"],
            [("A.tex", "\\part\x7bA\x7d\n\n"), ("B.tex", "\\chapter\x7bB\x7d\n\n"),
             ("E.tex", "\\chapter\x7bE\x7d\n\n")]) ∧
      [("A.tex", "\\part\x7bA\x7d\n\n"), ("B.tex", "\\chapter\x7bB\x7d\n\n"),
       ("E.tex", "\\chapter\x7bE\x7d\n\n")] =
        preorderFiles id id []
          [⟨"A", "", false, 0, [⟨"B", "", false, 1, [⟨"E", "", false, 2, []⟩]⟩]⟩] := by
  have h : process_structure id id []
      [⟨"A", "", false, 0, [⟨"B", "", false, 1, [⟨"E", "", false, 2, []⟩]⟩]⟩] =
      some (["\\include\x7bchapters/A\x7d\n", "  \\include\x7bchapters/B\x7d\n",
             "    \\include\x7bchapters/E\x7d\n"],
            [("A.tex", "\\part\x7bA\x7d\n\n"), ("B.tex", "\\chapter\x7bB\x7d\n\n"),
             ("E.tex", "\\chapter\x7bE\x7d\n\n")]) := by
    simp [process_structure, skipItem, category, manifestLine, fileNameOf,
      unitContent, chapterBody, urlSubS, urlSub, pyReplaceS, replList,
      safeTitleS, collapseRuns, keepChar, pyIsWord, pyIsSpace, lookupContent,
      String.join]
  exact ⟨h, claim_C4_heading_by_depth id id [] _ _ _ h⟩

theorem process_structure_append (fetch conv : String → String)
    (pages : List (String × String)) : ∀ xs ys : List Item,
    process_structure fetch conv pages (xs ++ ys) =
      match process_structure fetch conv pages xs,
          process_structure fetch conv pages ys with
      | some (l1, f1), some (l2, f2) => some (l1 ++ l2, f1 ++ f2)
      | _, _ => none := by
  intro xs
  induction xs using process_structure.induct fetch conv pages with
  | case1 =>
    intro ys
    rw [List.nil_append, process_structure_nil]
    cases hy : process_structure fetch conv pages ys with
    | none => rfl
    | some pr => obtain ⟨l2, f2⟩ := pr; simp
  | case2 it rest hskip ih =>
    intro ys
    rw [List.cons_append, process_structure_skip fetch conv pages _ hskip,
      process_structure_skip fetch conv pages rest hskip]
    exact ih ys
  | case3 it rest hskip hcat =>
    intro ys
    rw [List.cons_append]
    conv_lhs => rw [process_structure]
    conv_rhs => rw [process_structure]
    simp only [if_neg hskip, hcat]
  | case4 it rest hskip cat hcat hch ih =>
    intro ys
    rw [List.cons_append]
    conv_lhs => rw [process_structure]
    conv_rhs => rw [process_structure]
    simp only [if_neg hskip, hcat, hch]
  | case5 it rest hskip cat hcat cl cf hch hrest ihc ihr =>
    intro ys
    rw [List.cons_append]
    conv_lhs => rw [process_structure]
    conv_rhs => rw [process_structure]
    simp only [if_neg hskip, hcat, hch, ihr ys, hrest]
  | case6 it rest hskip cat hcat cl cf hch rl rf hrest ihc ihr =>
    intro ys
    rw [List.cons_append]
    conv_lhs => rw [process_structure]
    conv_rhs => rw [process_structure]
    simp only [if_neg hskip, hcat, hch, hrest, ihr ys]
    cases hy : process_structure fetch conv pages ys with
    | none => simp [hy]
    | some pr =>
      obtain ⟨l2, f2⟩ := pr
      simp [hy]

/-- C5: a node whose title starts with the reserved `:Rummad:` category
prefix contributes nothing at all — no manifest line, no output unit,
and its children are never visited: the render of any structure
containing it equals the render of the structure with the node (and its
whole subtree) removed. -/
theorem claim_C5_category_page_skipped (fetch conv : String → String)
    (pages : List (String × String)) (pre rest : List Item) (it : Item)
    (h : skipItem it = true) :
    process_structure fetch conv pages (pre ++ it :: rest) =
      process_structure fetch conv pages (pre ++ rest) := by
  rw [process_structure_append, process_structure_append,
    process_structure_skip fetch conv pages rest h]

/-- Witness for C5 at a concrete structure: a category node with a
child disappears from the render. -/
theorem claim_C5_witness :
    skipItem ⟨":Rummad:Cat", "", false, 0, [⟨"B", "", false, 1, []⟩]⟩ = true ∧
    process_structure id id []
        ([⟨"P", "", false, 0, []⟩] ++
          ⟨":Rummad:Cat", "", false, 0, [⟨"B", "", false, 1, []⟩]⟩ ::
            [⟨"D", "", false, 0, []⟩]) =
      process_structure id id []
        ([⟨"P", "", false, 0, []⟩] ++ [⟨"D", "", false, 0, []⟩]) :=
  ⟨by decide,
    claim_C5_category_page_skipped id id [] [⟨"P", "", false, 0, []⟩]
      [⟨"D", "", false, 0, []⟩]
      ⟨":Rummad:Cat", "", false, 0, [⟨"B", "", false, 1, []⟩]⟩ (by decide)⟩

theorem foldl_lookup_absent (g : String × String → String) :
    ∀ (pages : List (String × String)) (t : String) (acc : String),
    (∀ p ∈ pages, p.1 ≠ t) →
    pages.foldl (fun acc p => if p.1 = t then g p else acc) acc = acc := by
  intro pages
  induction pages with
  | nil => intro t acc _; rfl
  | cons p rest ih =>
    intro t acc hall
    rw [List.foldl_cons, if_neg (hall p (List.mem_cons_self _ _))]
    exact ih t acc (fun q hq => hall q (List.mem_cons_of_mem p hq))

theorem lookupContent_absent (fetch : String → String)
    (pages : List (String × String)) (t : String)
    (h : ∀ p ∈ pages, p.1 ≠ t) : lookupContent fetch pages t = "" :=
  foldl_lookup_absent _ pages t "" h

theorem replList_nil (old new : List Char) : replList old new [] = [] := by
  rw [replList]

theorem pyReplaceS_empty (old new : String) : pyReplaceS "" old new = "" := by
  show (⟨replList old.data new.data "".data⟩ : String) = ""
  rw [show "".data = ([] : List Char) from rfl, replList_nil]

theorem urlSubS_empty : urlSubS "" = "" := by
  show (⟨urlSub "".data⟩ : String) = ""
  rw [show "".data = ([] : List Char) from rfl, urlSub]

theorem category_get_of_le {d : Nat} (h : d ≤ 2) :
    category.get? d = some (headingOf d) := by
  interval_cases d <;> rfl

/-- Counterexample for C6 as stated: a linked node at depth 3 whose
title is absent from the store does not produce an output unit with an
empty body — `category[depth]` raises `IndexError` (modelled as `none`)
and the build aborts before anything is written for the node. -/
theorem claim_C6_counterexample :
    process_structure id id [("Other", "body")]
      [⟨"Missing", "u", true, 3, []⟩] = none := by
  rw [process_structure, if_neg (by decide),
    show category.get? (Item.depth ⟨"Missing", "u", true, 3, []⟩) = none
      from rfl]

/-- C6 as amended: a linked node at a renderable depth (0, 1 or 2)
whose exact title occurs in no page of the snapshot still renders: the
build continues (`some` result), the node gets its manifest line, and
its output unit carries an empty body — just the heading command and
title (assuming the converter maps the empty document to the empty
document).  At depth ≥ 3 the renderer instead fails at
`category[depth]`, whether or not the title is present — see the
counterexample. -/
theorem claim_C6_missing_document (fetch conv : String → String)
    (pages : List (String × String)) (t u : String) (d : Nat)
    (hd : d ≤ 2) (hskip : skipItem ⟨t, u, true, d, []⟩ = false)
    (habsent : ∀ p ∈ pages, p.1 ≠ t) (hconv : conv "" = "") :
    process_structure fetch conv pages [⟨t, u, true, d, []⟩] =
      some ([manifestLine ⟨t, u, true, d, []⟩],
        [(fileNameOf ⟨t, u, true, d, []⟩,
          "\\" ++ headingOf d ++ "\x7b" ++ t ++ "\x7d\n\n")]) := by
  rw [process_structure, if_neg (by simp [hskip])]
  have hcat : category.get? (Item.depth ⟨t, u, true, d, []⟩) =
      some (headingOf d) := category_get_of_le hd
  rw [hcat, process_structure_nil]
  have hbody : unitContent fetch conv pages (headingOf d) ⟨t, u, true, d, []⟩ =
      "\\" ++ headingOf d ++ "\x7b" ++ t ++ "\x7d\n\n" := by
    have h0 : unitContent fetch conv pages (headingOf d) ⟨t, u, true, d, []⟩ =
        "\\" ++ headingOf d ++ "\x7b" ++ t ++ "\x7d\n\n" ++
          pyReplaceS (urlSubS (pyReplaceS
              (pyReplaceS (conv (lookupContent fetch pages t))
                longtableOld longtableNew)
            topruleBlock ""))
          "subsection" "section" := rfl
    rw [h0, lookupContent_absent fetch pages t habsent, hconv,
      pyReplaceS_empty, pyReplaceS_empty, urlSubS_empty, pyReplaceS_empty,
      String.append_empty]
  simp [hbody]

/-- Witness for C6: a linked leaf at depth 1 whose title is absent from
a one-page snapshot. -/
theorem claim_C6_witness :
    process_structure id id [("Other", "body")]
        [⟨"Missing", "u", true, 1, []⟩] =
      some ([manifestLine ⟨"Missing", "u", true, 1, []⟩],
        [(fileNameOf ⟨"Missing", "u", true, 1, []⟩,
          "\\" ++ headingOf 1 ++ "\x7bMissing\x7d\n\n")]) := by
  have h := claim_C6_missing_document id id [("Other", "body")] "Missing" "u" 1
    (by decide) (by decide)
    (by
      intro p hp
      rcases (by simpa using hp : p = ("Other", "body")) with rfl
      decide)
    rfl
  simpa using h

/-! ## ToC tree builder lemmas (claims C1, C7, C8) -/

theorem parseLis_depthInv (d0 : Nat) (lis0 : List Html) :
    ∀ items, parseLis d0 lis0 = some items → depthInvList d0 items = true := by
  refine parseLis.induct
    (fun d li => ∀ it, parseItem d li = some it →
      it.depth = d ∧ depthInvList (d + 1) it.children = true)
    (fun d lis => ∀ items, parseLis d lis = some items →
      depthInvList d items = true)
    ?_ ?_ ?_ ?_ ?_ ?_ ?_ ?_ ?_ ?_ d0 lis0
  · intro d s it h
    rw [parseItem] at h
    simp at h
  · intro d nm attrs cs hhead it h
    rw [parseItem] at h
    simp only [hhead] at h
    simp at h
  · intro d nm attrs cs c0 hhead hfind it h
    rw [parseItem] at h
    simp only [hhead, hfind] at h
    simp at h
  · intro d nm attrs cs c0 hhead lk hfind ol hol ch hch ih it h
    rw [parseItem] at h
    simp only [hhead, hfind] at h
    split at h
    · rename_i ol' heq
      rw [hol] at heq
      injection heq with heq'
      subst heq'
      simp only [hch, Option.some.injEq] at h
      subst h
      exact ⟨rfl, ih ch hch⟩
    · rename_i heq
      rw [hol] at heq
      cases heq
  · intro d nm attrs cs c0 hhead lk hfind ol hol hch ih it h
    rw [parseItem] at h
    simp only [hhead, hfind] at h
    split at h
    · rename_i ol' heq
      rw [hol] at heq
      injection heq with heq'
      subst heq'
      simp only [hch] at h
      simp at h
    · rename_i heq
      rw [hol] at heq
      cases heq
  · intro d nm attrs cs c0 hhead lk hfind hol it h
    rw [parseItem] at h
    simp only [hhead, hfind] at h
    split at h
    · rename_i ol' heq
      rw [hol] at heq
      cases heq
    · simp only [Option.some.injEq] at h
      subst h
      refine ⟨rfl, ?_⟩
      rw [depthInvList]
  · intro d items h
    rw [parseLis] at h
    simp only [Option.some.injEq] at h
    subst h
    rw [depthInvList]
  · intro d li rest hnone ih1 items h
    rw [parseLis, hnone] at h
    simp at h
  · intro d li rest it hsome hrest ih1 ih2 items h
    rw [parseLis, hsome, hrest] at h
    simp at h
  · intro d li rest it hsome items' hrest ih1 ih2 items h
    rw [parseLis, hsome, hrest] at h
    simp only [Option.some.injEq] at h
    subst h
    rw [depthInvList]
    obtain ⟨hdep, hch⟩ := ih1 it hsome
    have hrest' := ih2 items' hrest
    simp [hdep, hch, hrest']

theorem parseLis_order (d : Nat) (lis : List Html) : ∀ items : List Item,
    parseLis d lis = some items →
    items.length = lis.length ∧
    ∀ i (h1 : i < lis.length) (h2 : i < items.length),
      parseItem d (lis.get ⟨i, h1⟩) = some (items.get ⟨i, h2⟩) := by
  induction lis with
  | nil =>
    intro items h
    rw [parseLis] at h
    simp only [Option.some.injEq] at h
    subst h
    exact ⟨rfl, fun i h1 h2 => absurd h1 (by simp)⟩
  | cons li rest ih =>
    intro items h
    rw [parseLis] at h
    cases hit : parseItem d li with
    | none => rw [hit] at h; simp at h
    | some it =>
      rw [hit] at h
      cases hrest : parseLis d rest with
      | none => rw [hrest] at h; simp at h
      | some items' =>
        rw [hrest] at h
        simp only [Option.some.injEq] at h
        subst h
        obtain ⟨hl, hp⟩ := ih items' hrest
        refine ⟨by simp [hl], ?_⟩
        intro i h1 h2
        match i with
        | 0 => simpa using hit
        | Nat.succ j =>
          have h1' : j < rest.length := by simpa using h1
          have h2' : j < items'.length := by simpa using h2
          simpa using hp j h1' h2'

/-- C1: whenever `parse_list_items` returns a tree, the output has
exactly one node per direct `li` child, the i-th node parsed from the
i-th `li` (sibling order preserved), and the depth fields satisfy the
invariant: top-level nodes carry the given depth and every child
carries its parent's depth plus one, recursively. -/
theorem claim_C1_tree_builder_order_and_depth (ol : Html) (d : Nat)
    (items : List Item) (h : parse_list_items ol d = some items) :
    items.length = (directLisOf ol).length ∧
    (∀ i (h1 : i < (directLisOf ol).length) (h2 : i < items.length),
      parseItem d ((directLisOf ol).get ⟨i, h1⟩) = some (items.get ⟨i, h2⟩)) ∧
    depthInvList d items = true := by
  rw [parse_list_items] at h
  obtain ⟨h1, h2⟩ := parseLis_order d (directLisOf ol) items h
  exact ⟨h1, h2, parseLis_depthInv d (directLisOf ol) items h⟩

/-- Evaluation form of `parseItem` for a `li` with a first content node
and a first `<a>` descendant: a plain (non-dependent) restatement of the
definition's final branches. -/
theorem parseItem_eval (d : Nat) (nm : String)
    (attrs : List (String × String)) (cs : List Html) (c0 lk : Html)
    (hhead : cs.head? = some c0) (hfind : findFirst "a" cs = some lk) :
    parseItem d (Html.tag nm attrs cs) =
      (match findFirst "ol" cs with
        | some ol => parseLis (d + 1) (directLisOf ol)
        | none => some ([] : List Item)).map (fun ch =>
        ⟨if render c0 == render lk then
            pyReplaceS (attrOf lk "href" "") "_" " "
          else pyStripS (render c0),
         if render c0 == render lk then
            (if strStarts "/" (attrOf lk "href" "") then
              urljoinSite (attrOf lk "href" "")
            else attrOf lk "href" "")
          else "",
         render c0 == render lk, d, ch⟩) := by
  rw [parseItem]
  simp only [hhead, hfind]
  split
  · rename_i ol heq
    rw [heq]
    cases hch : parseLis (d + 1) (directLisOf ol) with
    | none => simp [hch]
    | some ch => simp [hch]
  · rename_i heq
    rw [heq]
    simp

/-- `parseItem` when the `li` subtree has no nested `ol`. -/
theorem parseItem_noOl (d : Nat) (nm : String)
    (attrs : List (String × String)) (cs : List Html) (c0 lk : Html)
    (hhead : cs.head? = some c0) (hfind : findFirst "a" cs = some lk)
    (hol : findFirst "ol" cs = none) :
    parseItem d (Html.tag nm attrs cs) =
      some ⟨if render c0 == render lk then
              pyReplaceS (attrOf lk "href" "") "_" " "
            else pyStripS (render c0),
            if render c0 == render lk then
              (if strStarts "/" (attrOf lk "href" "") then
                urljoinSite (attrOf lk "href" "")
              else attrOf lk "href" "")
            else "",
            render c0 == render lk, d, []⟩ := by
  rw [parseItem_eval d nm attrs cs c0 lk hhead hfind, hol]
  rfl

/-- `parseItem` when the `li` subtree has a nested `ol`. -/
theorem parseItem_someOl (d : Nat) (nm : String)
    (attrs : List (String × String)) (cs : List Html) (c0 lk ol : Html)
    (hhead : cs.head? = some c0) (hfind : findFirst "a" cs = some lk)
    (hol : findFirst "ol" cs = some ol) :
    parseItem d (Html.tag nm attrs cs) =
      (parseLis (d + 1) (directLisOf ol)).map (fun ch =>
        ⟨if render c0 == render lk then
            pyReplaceS (attrOf lk "href" "") "_" " "
          else pyStripS (render c0),
         if render c0 == render lk then
            (if strStarts "/" (attrOf lk "href" "") then
              urljoinSite (attrOf lk "href" "")
            else attrOf lk "href" "")
          else "",
         render c0 == render lk, d, ch⟩) := by
  rw [parseItem_eval d nm attrs cs c0 lk hhead hfind, hol]

/-- Witness for C1: a two-level outline (a plain-text part with one
linked chapter) parses to one node per list item with depth 0 at the
top and depth 1 for the child, and the claim's invariants hold there. -/
theorem claim_C1_witness :
    parse_list_items
        (Html.tag "ol" []
          [Html.tag "li" [] [Html.text "P",
            Html.tag "ol" []
              [Html.tag "li" [] [Html.tag "a" [("href", "C")] [Html.text "C"]]]]])
        0 =
      some [⟨"P", "", false, 0, [⟨"C", "C", true, 1, []⟩]⟩] ∧
    [(⟨"P", "", false, 0, [⟨"C", "C", true, 1, []⟩]⟩ : Item)].length =
      (directLisOf (Html.tag "ol" []
        [Html.tag "li" [] [Html.text "P",
          Html.tag "ol" []
            [Html.tag "li" [] [Html.tag "a" [("href", "C")] [Html.text "C"]]]]])).length ∧
    depthInvList 0 [⟨"P", "", false, 0, [⟨"C", "C", true, 1, []⟩]⟩] = true := by
  have h : parse_list_items
      (Html.tag "ol" []
        [Html.tag "li" [] [Html.text "P",
          Html.tag "ol" []
            [Html.tag "li" [] [Html.tag "a" [("href", "C")] [Html.text "C"]]]]])
      0 =
      some [⟨"P", "", false, 0, [⟨"C", "C", true, 1, []⟩]⟩] := by
    have hInner : parseItem 1
        (Html.tag "li" [] [Html.tag "a" [("href", "C")] [Html.text "C"]]) =
        some ⟨"C", "C", true, 1, []⟩ := by
      rw [parseItem_noOl 1 "li" [] [Html.tag "a" [("href", "C")] [Html.text "C"]]
        (Html.tag "a" [("href", "C")] [Html.text "C"])
        (Html.tag "a" [("href", "C")] [Html.text "C"])
        (by rfl) (by simp [findFirst]) (by simp [findFirst])]
      simp [render, renderList, renderAttrs, attrOf, pyReplaceS, replList,
        strStarts, pyStripS, pyStripL]
    have hOuter : parseItem 0
        (Html.tag "li" [] [Html.text "P",
          Html.tag "ol" []
            [Html.tag "li" [] [Html.tag "a" [("href", "C")] [Html.text "C"]]]]) =
        some ⟨"P", "", false, 0, [⟨"C", "C", true, 1, []⟩]⟩ := by
      rw [parseItem_someOl 0 "li" []
        [Html.text "P", Html.tag "ol" []
          [Html.tag "li" [] [Html.tag "a" [("href", "C")] [Html.text "C"]]]]
        (Html.text "P")
        (Html.tag "a" [("href", "C")] [Html.text "C"])
        (Html.tag "ol" []
          [Html.tag "li" [] [Html.tag "a" [("href", "C")] [Html.text "C"]]])
        (by rfl) (by simp [findFirst]) (by simp [findFirst])]
      rw [show directLisOf (Html.tag "ol" []
          [Html.tag "li" [] [Html.tag "a" [("href", "C")] [Html.text "C"]]]) =
        [Html.tag "li" [] [Html.tag "a" [("href", "C")] [Html.text "C"]]]
        from by simp [directLisOf, isLiTag]]
      rw [parseLis, hInner, parseLis]
      simp [render, renderList, renderAttrs, pyStripS, pyStripL, pyIsSpace,
        List.dropWhile_cons, List.dropWhile_nil]
    rw [parse_list_items,
      show directLisOf (Html.tag "ol" []
        [Html.tag "li" [] [Html.text "P",
          Html.tag "ol" []
            [Html.tag "li" [] [Html.tag "a" [("href", "C")] [Html.text "C"]]]]]) =
        [Html.tag "li" [] [Html.text "P",
          Html.tag "ol" []
            [Html.tag "li" [] [Html.tag "a" [("href", "C")] [Html.text "C"]]]]]
        from by simp [directLisOf, isLiTag],
      parseLis, hOuter, parseLis]
  have hmain := claim_C1_tree_builder_order_and_depth _ 0 _ h
  exact ⟨h, hmain.1, hmain.2.2⟩

/-- C7: the parse of an outline whose list item is plain text with no
link anywhere in its subtree fails (`none`): `li.find("a")` is `None`
and the unconditional `link.get("href", "")` raises `AttributeError`,
instead of producing the claimed `hasLink = false` node. -/
theorem claim_C7_plain_text_item_crashes :
    parse_list_items
      (Html.tag "ol" [] [Html.tag "li" [] [Html.text "Heading"]]) 0 = none := by
  rw [parse_list_items,
    show directLisOf (Html.tag "ol" [] [Html.tag "li" [] [Html.text "Heading"]]) =
      [Html.tag "li" [] [Html.text "Heading"]] from by simp [directLisOf, isLiTag],
    parseLis]
  have hitem : parseItem 0 (Html.tag "li" [] [Html.text "Heading"]) = none := by
    rw [parseItem]
    simp [findFirst]
  rw [hitem]

/-- Counterexample for C8: a list item whose displayed content is
exactly one link, but the link carries no `href` attribute.  The node
comes back with `hasLink = true` and an empty `targetRef` (`url`),
refuting the claim that `targetRef` is non-empty for every link-only
item. -/
theorem claim_C8_counterexample :
    parse_list_items
        (Html.tag "ol" [] [Html.tag "li" [] [Html.tag "a" [] [Html.text "X"]]])
        0 =
      some [⟨"", "", true, 0, []⟩] ∧
    Item.hasLink ⟨"", "", true, 0, []⟩ = true ∧
    Item.url ⟨"", "", true, 0, []⟩ = "" := by
  refine ⟨?_, rfl, rfl⟩
  rw [parse_list_items,
    show directLisOf (Html.tag "ol" []
        [Html.tag "li" [] [Html.tag "a" [] [Html.text "X"]]]) =
      [Html.tag "li" [] [Html.tag "a" [] [Html.text "X"]]]
      from by simp [directLisOf, isLiTag]]
  have hitem : parseItem 0 (Html.tag "li" [] [Html.tag "a" [] [Html.text "X"]]) =
      some ⟨"", "", true, 0, []⟩ := by
    rw [parseItem_noOl 0 "li" [] [Html.tag "a" [] [Html.text "X"]]
      (Html.tag "a" [] [Html.text "X"]) (Html.tag "a" [] [Html.text "X"])
      (by rfl) (by simp [findFirst]) (by simp [findFirst])]
    simp [attrOf, pyReplaceS_empty, strStarts]
  rw [parseLis, hitem, parseLis]

theorem strStarts_append (p s : String) : strStarts p (p ++ s) = true := by
  simp [strStarts, String.data_append, List.isPrefixOf_iff_prefix]

theorem https_append_ne_empty (s : String) : ("https:" ++ s) ≠ "" := by
  intro h
  have hd := congrArg String.data h
  rw [String.data_append] at hd
  simp at hd

theorem wiki_append_ne_empty (s : String) : (WIKI_BASE_URL ++ s) ≠ "" := by
  intro h
  have hd := congrArg String.data h
  rw [WIKI_BASE_URL, String.data_append] at hd
  simp at hd

theorem urljoinSite_ne_empty (href : String) : urljoinSite href ≠ "" := by
  rw [urljoinSite]
  split
  · exact https_append_ne_empty href
  · exact wiki_append_ne_empty href

theorem urljoinSite_https (href : String) :
    strStarts "https:" (urljoinSite href) = true := by
  rw [urljoinSite]
  split
  · exact strStarts_append "https:" href
  · rw [show WIKI_BASE_URL ++ href =
        "https:" ++ ("//style.miraheze.org" ++ href) from by
      rw [show WIKI_BASE_URL = "https:" ++ "//style.miraheze.org" from rfl,
        String.append_assoc]]
    exact strStarts_append "https:" _

/-- C8 as amended: for a list item whose displayed content is exactly
its first link (`str(li.contents[0]) == str(link)`), the parsed node
has `hasLink = true` and its `title` is derived from the link's `href`
reference with underscores replaced by spaces; provided the link's
`href` is non-empty, `targetRef` (`url`) is non-empty, equals the
site-absolute join when the reference is site-relative (then carrying
the `https:` scheme), and equals the reference itself otherwise. -/
theorem claim_C8_link_item_roundtrip (d : Nat) (nm : String)
    (attrs : List (String × String)) (cs : List Html) (c0 lk : Html)
    (it : Item)
    (hit : parseItem d (Html.tag nm attrs cs) = some it)
    (hhead : cs.head? = some c0)
    (hfind : findFirst "a" cs = some lk)
    (hdisp : render c0 = render lk)
    (hhref : attrOf lk "href" "" ≠ "") :
    it.hasLink = true ∧
    it.title = pyReplaceS (attrOf lk "href" "") "_" " " ∧
    it.url ≠ "" ∧
    (strStarts "/" (attrOf lk "href" "") = true →
      it.url = urljoinSite (attrOf lk "href" "") ∧
      strStarts "https:" it.url = true) ∧
    (strStarts "/" (attrOf lk "href" "") = false →
      it.url = attrOf lk "href" "") := by
  rw [parseItem_eval d nm attrs cs c0 lk hhead hfind] at hit
  rw [Option.map_eq_some'] at hit
  obtain ⟨ch, hch, hfeq⟩ := hit
  subst hfeq
  refine ⟨by simp [hdisp], by simp [hdisp], ?_, ?_, ?_⟩
  · cases hs : strStarts "/" (attrOf lk "href" "") with
    | true =>
      simp only [hdisp, beq_self_eq_true, hs]
      simp
      exact urljoinSite_ne_empty _
    | false =>
      simp only [hdisp, beq_self_eq_true, hs]
      simp
      exact hhref
  · intro hs
    simp only [hdisp, beq_self_eq_true, hs]
    simp
    exact urljoinSite_https _
  · intro hs
    simp only [hdisp, beq_self_eq_true, hs]
    simp

/-- Witness for the amended C8 at a site-relative reference. -/
theorem claim_C8_witness :
    parseItem 0 (Html.tag "li" []
        [Html.tag "a" [("href", "/C_D")] [Html.text "C D"]]) =
      some ⟨"/C D", "https://style.miraheze.org/C_D", true, 0, []⟩ ∧
    Item.hasLink ⟨"/C D", "https://style.miraheze.org/C_D", true, 0, []⟩ = true ∧
    Item.url ⟨"/C D", "https://style.miraheze.org/C_D", true, 0, []⟩ ≠ "" ∧
    strStarts "https:"
      (Item.url ⟨"/C D", "https://style.miraheze.org/C_D", true, 0, []⟩) = true := by
  have hit : parseItem 0 (Html.tag "li" []
      [Html.tag "a" [("href", "/C_D")] [Html.text "C D"]]) =
      some ⟨"/C D", "https://style.miraheze.org/C_D", true, 0, []⟩ := by
    rw [parseItem_noOl 0 "li" [] [Html.tag "a" [("href", "/C_D")] [Html.text "C D"]]
      (Html.tag "a" [("href", "/C_D")] [Html.text "C D"])
      (Html.tag "a" [("href", "/C_D")] [Html.text "C D"])
      (by rfl) (by simp [findFirst]) (by simp [findFirst])]
    simp [attrOf, pyReplaceS, replList, strStarts, urljoinSite,
      WIKI_BASE_URL]
  have hconc := claim_C8_link_item_roundtrip 0 "li" []
    [Html.tag "a" [("href", "/C_D")] [Html.text "C D"]]
    (Html.tag "a" [("href", "/C_D")] [Html.text "C D"])
    (Html.tag "a" [("href", "/C_D")] [Html.text "C D"])
    ⟨"/C D", "https://style.miraheze.org/C_D", true, 0, []⟩
    hit (by rfl) (by simp [findFirst]) rfl (by decide)
  exact ⟨hit, hconc.1, hconc.2.2.1,
    (hconc.2.2.2.1 (by decide)).2⟩

/-! ## Transclusion resolver lemmas (claim C2) -/

theorem findall_skip (rest : List Char) : ∀ pre : List Char,
    (∀ c ∈ pre, c ≠ '\x7b') → findall (pre ++ rest) = findall rest := by
  intro pre
  induction pre with
  | nil => intro _; rw [List.nil_append]
  | cons c pre' ih =>
    intro hall
    rw [List.cons_append, findall,
      if_neg (by
        rintro ⟨rfl, -⟩
        exact hall '\x7b' (List.mem_cons_self _ _) rfl)]
    exact ih (fun d hd => hall d (List.mem_cons_of_mem c hd))

theorem findall_brace_free (s : List Char) (h : ∀ c ∈ s, c ≠ '\x7b') :
    findall s = [] := by
  have := findall_skip [] s h
  rw [List.append_nil] at this
  rw [this, findall]

theorem scanTitle_marker : ∀ t post : List Char, t ≠ [] →
    (∀ c ∈ t, c ≠ '\n' ∧ c ≠ '\x7d') →
    scanTitle (t ++ '\x7d' :: '\x7d' :: post) = some (t, post) := by
  intro t
  induction t with
  | nil => intro post h; exact absurd rfl h
  | cons c t' ih =>
    intro post _ hall
    have hc := hall c (List.mem_cons_self _ _)
    rw [List.cons_append, scanTitle, if_neg (by simp [hc.1])]
    cases ht' : t' with
    | nil =>
      simp only [List.nil_append]
      rw [if_pos (by simp)]
      simp
    | cons c2 t2 =>
      have hc2 : c2 ≠ '\x7d' := by
        refine (hall c2 ?_).2
        rw [ht']
        exact List.mem_cons_of_mem c (List.mem_cons_self _ _)
      rw [if_neg (by
        rw [List.cons_append, List.cons_prefix_cons]
        rintro ⟨rfl, -⟩
        exact hc2 rfl)]
      rw [← ht']
      have hrec := ih post (by simp [ht']) (fun d hd =>
        hall d (List.mem_cons_of_mem c hd))
      rw [hrec]

theorem findall_marker (t post : List Char) (ht : t ≠ [])
    (hall : ∀ c ∈ t, c ≠ '\n' ∧ c ≠ '\x7d')
    (hpost : ∀ c ∈ post, c ≠ '\x7b') :
    findall ('\x7b' :: '\x7b' :: ':' :: (t ++ '\x7d' :: '\x7d' :: post)) =
      [t] := by
  rw [findall, if_pos (by simp)]
  have hdrop : (('\x7b' : Char) :: ':' :: (t ++ '\x7d' :: '\x7d' :: post)).drop 2 =
      t ++ '\x7d' :: '\x7d' :: post := rfl
  rw [show scanTitle ((('\x7b' : Char) :: ':' ::
      (t ++ '\x7d' :: '\x7d' :: post)).drop 2) = some (t, post) from by
    rw [hdrop]; exact scanTitle_marker t post ht hall]
  show t :: findall post = [t]
  rw [findall_brace_free post hpost]

theorem replList_skip (old new rest : List Char) (hhead : old.head? = some '\x7b') :
    ∀ pre : List Char, (∀ c ∈ pre, c ≠ '\x7b') →
    replList old new (pre ++ rest) = pre ++ replList old new rest := by
  intro pre
  induction pre with
  | nil => intro _; rw [List.nil_append, List.nil_append]
  | cons c pre' ih =>
    intro hall
    have hc := hall c (List.mem_cons_self _ _)
    rw [List.cons_append, replList, dif_neg (by
      rintro ⟨-, hpfx⟩
      cases old with
      | nil => simp at hhead
      | cons o old' =>
        rw [List.cons_prefix_cons] at hpfx
        simp only [List.head?_cons, Option.some.injEq] at hhead
        exact hc (hpfx.1 ▸ hhead))]
    rw [List.cons_append, ih (fun d hd => hall d (List.mem_cons_of_mem c hd))]

theorem replList_hit (old new rest : List Char) (hne : old ≠ []) :
    replList old new (old ++ rest) = new ++ replList old new rest := by
  cases hold : old with
  | nil => exact absurd hold hne
  | cons o old' =>
    rw [← hold]
    rw [show old ++ rest = o :: (old' ++ rest) from by rw [hold]; rfl]
    rw [replList, dif_pos (by
      constructor
      · exact hne
      · rw [show o :: (old' ++ rest) = old ++ rest from by rw [hold]; rfl]
        exact List.prefix_append old rest)]
    rw [show o :: (old' ++ rest) = old ++ rest from by rw [hold]; rfl]
    rw [List.drop_left]

theorem replList_brace_free (old new s : List Char)
    (hhead : old.head? = some '\x7b') (h : ∀ c ∈ s, c ≠ '\x7b') :
    replList old new s = s := by
  have := replList_skip old new [] hhead s h
  rw [List.append_nil] at this
  rw [this, replList, List.append_nil]

theorem addExamplesCore_single (fetch : List Char → List Char)
    (t pre post : List Char)
    (ht : t ≠ [])
    (htc : ∀ c ∈ t, c ≠ '\n' ∧ c ≠ '\x7d')
    (hstrip : pyStripL t = t)
    (hpre : ∀ c ∈ pre, c ≠ '\x7b')
    (hpost : ∀ c ∈ post, c ≠ '\x7b')
    (hF : ∀ c ∈ fetch t, c ≠ '\x7b') :
    addExamplesCore fetch
        (pre ++ '\x7b' :: '\x7b' :: ':' :: (t ++ '\x7d' :: '\x7d' :: post)) =
      pre ++ fetch t ++ post ∧
    findall (pre ++ fetch t ++ post) = [] := by
  have hfind : findall
      (pre ++ '\x7b' :: '\x7b' :: ':' :: (t ++ '\x7d' :: '\x7d' :: post)) =
      [t] := by
    rw [findall_skip _ pre hpre]
    exact findall_marker t post ht htc hpost
  constructor
  · rw [addExamplesCore, hfind, List.foldl_cons, List.foldl_nil, hstrip]
    have hshape : (('\x7b' :: '\x7b' :: ':' :: t ++ ['\x7d', '\x7d'] :
          List Char) ++ post) =
        '\x7b' :: '\x7b' :: ':' :: (t ++ '\x7d' :: '\x7d' :: post) := by
      simp
    rw [← hshape]
    rw [replList_skip _ _ _ (by rfl) pre hpre]
    rw [replList_hit _ _ _ (by simp)]
    rw [replList_brace_free _ _ post (by rfl) hpost]
    simp [List.append_assoc]
  · apply findall_brace_free
    intro c hc
    rcases List.mem_append.mp hc with h1 | h2
    · rcases List.mem_append.mp h1 with ha | hb
      · exact hpre c ha
      · exact hF c hb
    · exact hpost c h2

/-- C2 as amended: the single-pass guarantee holds under the conditions
the implementation relies on.  For a body `pre ++ "{{:t}}" ++ post`
whose marker title `t` is non-empty, free of `}` and newline, and
already stripped (no surrounding whitespace), and where `pre`, `post`
and the fetched fragment contain no `{`, `add_examples_to_content`
returns `pre ++ F ++ post` with the marker replaced by the fragment
`F` and no marker syntax remaining.  (As stated the claim fails: a
marker title with surrounding whitespace is matched but the replacement
targets the stripped title, leaving the marker in place — see the
counterexample.) -/
theorem claim_C2_transclusion_single_pass (t F pre post : String)
    (ht : t.data ≠ [])
    (htc : ∀ c ∈ t.data, c ≠ '\n' ∧ c ≠ '\x7d')
    (hstrip : pyStripS t = t)
    (hpre : ∀ c ∈ pre.data, c ≠ '\x7b')
    (hpost : ∀ c ∈ post.data, c ≠ '\x7b')
    (hF : ∀ c ∈ F.data, c ≠ '\x7b') :
    add_examples_to_content (fun _ => F)
        (pre ++ "\x7b\x7b:" ++ t ++ "\x7d\x7d" ++ post) =
      pre ++ F ++ post ∧
    findall (pre ++ F ++ post).data = [] := by
  have hstripL : pyStripL t.data = t.data := congrArg String.data hstrip
  have hcore := addExamplesCore_single (fun _ => F.data) t.data pre.data
    post.data ht htc hstripL hpre hpost hF
  have hsplit : (pre ++ F ++ post).data = pre.data ++ F.data ++ post.data := by
    rw [String.data_append, String.data_append]
  constructor
  · show (⟨addExamplesCore (fun _ => F.data)
        (pre ++ "\x7b\x7b:" ++ t ++ "\x7d\x7d" ++ post).data⟩ : String) =
      pre ++ F ++ post
    have hdata : (pre ++ "\x7b\x7b:" ++ t ++ "\x7d\x7d" ++ post).data =
        pre.data ++ '\x7b' :: '\x7b' :: ':' ::
          (t.data ++ '\x7d' :: '\x7d' :: post.data) := by
      simp [String.data_append]
    rw [hdata, hcore.1, show pre.data ++ F.data ++ post.data =
      (pre ++ F ++ post).data from hsplit.symm]
  · rw [hsplit]
    exact hcore.2

/-- Counterexample for C2 as stated: the marker `{{: A }}` (title with
surrounding whitespace) is matched by the scan, but the replacement
looks for `{{:A}}` (the stripped title), so the body comes back
unchanged and still contains a transclusion marker, for every fetch
stub. -/
theorem claim_C2_counterexample :
    add_examples_to_content (fun _ => "F") "\x7b\x7b: A \x7d\x7d" =
      "\x7b\x7b: A \x7d\x7d" ∧
    findall ("\x7b\x7b: A \x7d\x7d".data) ≠ [] := by
  have hfind : findall ("\x7b\x7b: A \x7d\x7d".data) = [[' ', 'A', ' ']] :=
    findall_marker [' ', 'A', ' '] [] (by simp) (by decide) (by simp)
  constructor
  · show (⟨addExamplesCore (fun _ => "F".data)
        ("\x7b\x7b: A \x7d\x7d".data)⟩ : String) = "\x7b\x7b: A \x7d\x7d"
    rw [addExamplesCore, hfind, List.foldl_cons, List.foldl_nil]
    rw [show pyStripL [' ', 'A', ' '] = ['A'] from by decide]
    rw [show replList ('\x7b' :: '\x7b' :: ':' :: ['A'] ++ ['\x7d', '\x7d'])
        ("F".data) ("\x7b\x7b: A \x7d\x7d".data) =
        "\x7b\x7b: A \x7d\x7d".data from by
      rw [replList, dif_neg (by decide)]
      rw [replList, dif_neg (by decide)]
      rw [replList, dif_neg (by decide)]
      rw [replList, dif_neg (by decide)]
      rw [replList, dif_neg (by decide)]
      rw [replList, dif_neg (by decide)]
      rw [replList, dif_neg (by decide)]
      rw [replList, dif_neg (by decide)]
      rw [replList]]
  · rw [hfind]
    simp

/-- Witness for the amended C2: the marker `{{:Ex}}` inside a plain
body is replaced by the fetched fragment and no marker remains. -/
theorem claim_C2_witness :
    add_examples_to_content (fun _ => "F") ("pre " ++ "\x7b\x7b:" ++ "Ex" ++
        "\x7d\x7d" ++ " post") =
      "pre " ++ "F" ++ " post" ∧
    findall ("pre " ++ "F" ++ " post").data = [] := by
  refine claim_C2_transclusion_single_pass "Ex" "F" "pre " " post"
    (by decide) (by decide) (by decide) (by decide) (by decide) (by decide)

end BuildBook
